import Mathlib

/-!
Shallow embedding of `mines.py` from the `pymines` repository: an infinite
game of minesweeper with lazily generated mines.

Modelling conventions:
* Coordinates are pairs of integers (`ℤ × ℤ`); the sparse Python sets
  `mines`, `uncovered`, `flags` become `Finset (ℤ × ℤ)`.
* `random()` is modelled by a stream `rand : ℕ → ℚ` of draws together with a
  cursor `rngIdx`; each executed `random() < self.density` test reads
  `rand rngIdx` and advances the cursor.  A run at density 1 corresponds to
  every draw being `< 1` (Python's `random()` lies in `[0, 1)`), and density 0
  to no draw being `< 0`.
* Python iterates its sets in an unspecified order; where the code iterates a
  set we fix one concrete enumeration order (the order of `adjacentList`).
  All properties proved below are insensitive to that choice.
* `Tile(n)` raises `ValueError` for an integer with no `Tile` member, so the
  embedded `get_tile` returns `Option Tile`, with `none` for that error.
-/

namespace Pymines

/-- The 14 members of the Python `Tile` enum. -/
inductive Tile where
  | ZERO
  | ONE
  | TWO
  | THREE
  | FOUR
  | FIVE
  | SIX
  | SEVEN
  | EIGHT
  | PLAIN
  | MINE
  | DETONATED
  | FLAG_RIGHT
  | FLAG_WRONG
  deriving DecidableEq, Repr

/-- The partial inverse of the `value` field of `Tile`: `Tile(n)` in Python,
returning `none` where Python raises `ValueError`. -/
def Tile.ofValue : ℕ → Option Tile
  | 0 => some .ZERO
  | 1 => some .ONE
  | 2 => some .TWO
  | 3 => some .THREE
  | 4 => some .FOUR
  | 5 => some .FIVE
  | 6 => some .SIX
  | 7 => some .SEVEN
  | 8 => some .EIGHT
  | 9 => some .PLAIN
  | 10 => some .MINE
  | 11 => some .DETONATED
  | 12 => some .FLAG_RIGHT
  | 13 => some .FLAG_WRONG
  | _ => none

/-- The mutable state of the Python `Minesweeper` class, together with the
random stream (`rand`, `rngIdx`) that models successive `random()` calls. -/
structure Minesweeper where
  density : ℚ
  mines : Finset (ℤ × ℤ)
  uncovered : Finset (ℤ × ℤ)
  flags : Finset (ℤ × ℤ)
  detonated_count : ℕ
  rand : ℕ → ℚ
  rngIdx : ℕ

/-- `Minesweeper.__init__`: all three sets start empty and the detonation
counter starts at zero. -/
def Minesweeper.init (density : ℚ) (rand : ℕ → ℚ) : Minesweeper :=
  { density := density
    mines := ∅
    uncovered := ∅
    flags := ∅
    detonated_count := 0
    rand := rand
    rngIdx := 0 }

/-- `AUTO_LIMIT = 1 << 16`. -/
def AUTO_LIMIT : ℕ := 1 <<< 16

/-- The 8 neighbours of `(x, y)` as a list, fixing one enumeration order for
the set `product([x-1, x, x+1], [y-1, y, y+1]) - {(x, y)}`. -/
def adjacentList (x y : ℤ) : List (ℤ × ℤ) :=
  [(x - 1, y - 1), (x - 1, y), (x - 1, y + 1),
   (x, y - 1), (x, y + 1),
   (x + 1, y - 1), (x + 1, y), (x + 1, y + 1)]

/-- `Minesweeper.adjacent`: the set of 8 adjacent coordinates. -/
def Minesweeper.adjacent (x y : ℤ) : Finset (ℤ × ℤ) :=
  (adjacentList x y).toFinset

/-- One iteration of the mine-generation loop body in `uncover`: candidate
`c` receives its one-time random decision only when none of its neighbours is
uncovered (`not self.adjacent(u, v) & self.uncovered`). -/
def Minesweeper.resolveCell (g : Minesweeper) (c : ℤ × ℤ) : Minesweeper :=
  if Minesweeper.adjacent c.1 c.2 ∩ g.uncovered = ∅ then
    if g.rand g.rngIdx < g.density then
      { g with mines := insert c g.mines, rngIdx := g.rngIdx + 1 }
    else
      { g with rngIdx := g.rngIdx + 1 }
  else g

/-- The candidates the generation loop of `uncover` ranges over:
`(self.adjacent(x, y) | {(x, y)}) - self.uncovered`, in a fixed order. -/
def Minesweeper.candidates (g : Minesweeper) (x y : ℤ) : List (ℤ × ℤ) :=
  ((x, y) :: adjacentList x y).filter (fun c => c ∉ g.uncovered)

/-- The mine-generation phase of `uncover`: a no-op on the very first uncover
(`self.uncovered` empty), otherwise one pass of `resolveCell` over the
candidates. -/
def Minesweeper.uncoverCore (g : Minesweeper) (x y : ℤ) : Minesweeper :=
  if g.uncovered = ∅ then g
  else (g.candidates x y).foldl Minesweeper.resolveCell g

/-- `Minesweeper.uncover`: resolve the target and its neighbourhood (unless
this is the very first uncover), then mark the cell uncovered, incrementing
`detonated_count` when it is a mine.  Returns the new state and the Python
return value. -/
def Minesweeper.uncover (g : Minesweeper) (x y : ℤ) : Minesweeper × Bool :=
  if (x, y) ∉ g.uncovered ∧ (x, y) ∉ g.flags then
    ({ g.uncoverCore x y with
        uncovered := insert (x, y) (g.uncoverCore x y).uncovered
        detonated_count := (g.uncoverCore x y).detonated_count +
          if (x, y) ∈ (g.uncoverCore x y).mines then 1 else 0 }, true)
  else (g, false)

/-- The neighbours of `p` that the loop body of `auto_uncover` appends to the
queue after a counted step: not yet visited (`cache`), not uncovered and not
flagged in the state `r` reached after `uncover(p)`. -/
def freshNeighbors (r : Minesweeper) (cache : Finset (ℤ × ℤ)) (p : ℤ × ℤ) :
    List (ℤ × ℤ) :=
  (adjacentList p.1 p.2).filter (fun c => c ∉ cache ∧ c ∉ r.uncovered ∧ c ∉ r.flags)

/-- At most 8 neighbours are appended per counted step. -/
lemma freshNeighbors_length_le (r : Minesweeper) (cache : Finset (ℤ × ℤ))
    (p : ℤ × ℤ) : (freshNeighbors r cache p).length ≤ 8 := by
  have h := List.length_filter_le
    (fun c => decide (c ∉ cache ∧ c ∉ r.uncovered ∧ c ∉ r.flags))
    (adjacentList p.1 p.2)
  simpa [freshNeighbors, adjacentList] using h

/-- The `while` loop of `auto_uncover`, with the queue, the `cache` visited
set and the `num_uncovered` counter made explicit. -/
def Minesweeper.autoLoop (g : Minesweeper) (queue : List (ℤ × ℤ))
    (cache : Finset (ℤ × ℤ)) (n : ℕ) : Minesweeper × ℕ :=
  match queue with
  | [] => (g, n)
  | p :: rest =>
    if n < AUTO_LIMIT then
      let r := g.uncover p.1 p.2
      if r.2 = true ∧ p ∉ r.1.mines ∧ Minesweeper.adjacent p.1 p.2 ∩ r.1.mines = ∅ then
        autoLoop r.1 (rest ++ freshNeighbors r.1 cache p)
          (cache ∪ (freshNeighbors r.1 cache p).toFinset) (n + 1)
      else
        autoLoop r.1 rest cache n
    else (g, n)
termination_by 9 * (AUTO_LIMIT - n) + queue.length
decreasing_by
  · have h8 := freshNeighbors_length_le (g.uncover p.1 p.2).1 cache p
    simp only [List.length_append, List.length_cons]
    omega
  · simp only [List.length_cons]
    omega

/-- `Minesweeper.auto_uncover`: seed the flood fill at `(x, y)` and return
whether any cell was counted (`num_uncovered > 0`). -/
def Minesweeper.auto_uncover (g : Minesweeper) (x y : ℤ) : Minesweeper × Bool :=
  let r := g.autoLoop [(x, y)] {(x, y)} 0
  (r.1, decide (0 < r.2))

/-- `Minesweeper.flag`: toggle a flag on a covered cell. -/
def Minesweeper.flag (g : Minesweeper) (x y : ℤ) : Minesweeper × Bool :=
  if (x, y) ∉ g.uncovered then
    (if (x, y) ∉ g.flags then { g with flags := insert (x, y) g.flags }
     else { g with flags := g.flags.erase (x, y) }, true)
  else (g, false)

/-- The loop body of `chord`: `auto_uncover` or `uncover` one neighbour,
depending on the `auto` keyword argument. -/
def chordStep (auto : Bool) (h : Minesweeper) (c : ℤ × ℤ) : Minesweeper :=
  if auto then (h.auto_uncover c.1 c.2).1 else (h.uncover c.1 c.2).1

/-- `Minesweeper.chord`: legal on an uncovered non-mine cell whose flagged
plus uncovered-mine neighbour count equals its mine neighbour count; when
legal, uncover (or auto-uncover) every neighbour. -/
def Minesweeper.chord (g : Minesweeper) (x y : ℤ) (auto : Bool) : Minesweeper × Bool :=
  if (x, y) ∈ g.uncovered ∧ (x, y) ∉ g.mines ∧
      (Minesweeper.adjacent x y ∩ g.flags).card +
        (Minesweeper.adjacent x y ∩ g.uncovered ∩ g.mines).card =
      (Minesweeper.adjacent x y ∩ g.mines).card then
    ((adjacentList x y).foldl (chordStep auto) g, true)
  else (g, false)

/-- `Minesweeper.get_tile`, with `Tile(len(...))` embedded as the fallible
`Tile.ofValue`. -/
def Minesweeper.get_tile (g : Minesweeper) (x y : ℤ) : Option Tile :=
  if (x, y) ∈ g.mines then
    some (if (x, y) ∈ g.uncovered then .DETONATED
      else if (x, y) ∈ g.flags then .FLAG_RIGHT
      else .MINE)
  else
    if (x, y) ∈ g.uncovered then
      Tile.ofValue (Minesweeper.adjacent x y ∩ g.mines).card
    else
      some (if (x, y) ∈ g.flags then .FLAG_WRONG else .PLAIN)

/-- A call into the mutating interface of `Minesweeper`, used to quantify
over arbitrary operation sequences. -/
inductive Op where
  | uncover (x y : ℤ)
  | auto_uncover (x y : ℤ)
  | flag (x y : ℤ)
  | chord (x y : ℤ) (auto : Bool)

/-- Run a single interface call, keeping only the state. -/
def applyOp (g : Minesweeper) : Op → Minesweeper
  | .uncover x y => (g.uncover x y).1
  | .auto_uncover x y => (g.auto_uncover x y).1
  | .flag x y => (g.flag x y).1
  | .chord x y auto => (g.chord x y auto).1

/-- Run a sequence of interface calls from a starting state. -/
def runOps (g : Minesweeper) (ops : List Op) : Minesweeper :=
  ops.foldl applyOp g

/-! ### Basic facts about the neighbourhood -/

/-- The 8 listed neighbours are pairwise distinct. -/
lemma adjacentList_nodup (x y : ℤ) : (adjacentList x y).Nodup := by
  simp [adjacentList, Prod.ext_iff]
  omega

/-- `adjacent` really has 8 elements. -/
lemma adjacent_card (x y : ℤ) : (Minesweeper.adjacent x y).card = 8 := by
  rw [Minesweeper.adjacent, List.toFinset_card_of_nodup (adjacentList_nodup x y)]
  rfl

set_option maxHeartbeats 1000000 in
/-- A cell is not its own neighbour. -/
lemma not_mem_adjacent_self (x y : ℤ) : (x, y) ∉ Minesweeper.adjacent x y := by
  simp only [Minesweeper.adjacent, adjacentList, List.mem_toFinset, List.mem_cons,
    List.not_mem_nil, or_false, Prod.mk.injEq]
  omega

set_option maxHeartbeats 1000000 in
/-- Adjacency is symmetric. -/
lemma adjacent_comm {c d : ℤ × ℤ} :
    c ∈ Minesweeper.adjacent d.1 d.2 ↔ d ∈ Minesweeper.adjacent c.1 c.2 := by
  obtain ⟨a, b⟩ := c
  obtain ⟨x, y⟩ := d
  simp only [Minesweeper.adjacent, adjacentList, List.mem_toFinset, List.mem_cons,
    List.not_mem_nil, or_false, Prod.mk.injEq]
  omega

/-! ### Structure of `resolveCell` and of the generation fold -/

/-- Resolution never touches `uncovered`. -/
lemma resolveCell_uncovered (g : Minesweeper) (c : ℤ × ℤ) :
    (g.resolveCell c).uncovered = g.uncovered := by
  rw [Minesweeper.resolveCell]
  split
  · split <;> rfl
  · rfl

/-- Resolution never touches `flags`. -/
lemma resolveCell_flags (g : Minesweeper) (c : ℤ × ℤ) :
    (g.resolveCell c).flags = g.flags := by
  rw [Minesweeper.resolveCell]
  split
  · split <;> rfl
  · rfl

/-- Resolution never touches `detonated_count`. -/
lemma resolveCell_detonated (g : Minesweeper) (c : ℤ × ℤ) :
    (g.resolveCell c).detonated_count = g.detonated_count := by
  rw [Minesweeper.resolveCell]
  split
  · split <;> rfl
  · rfl

/-- Resolution only ever adds mines. -/
lemma resolveCell_mines_subset (g : Minesweeper) (c : ℤ × ℤ) :
    g.mines ⊆ (g.resolveCell c).mines := by
  rw [Minesweeper.resolveCell]
  split
  · split
    · exact Finset.subset_insert _ _
    · exact Finset.Subset.refl _
  · exact Finset.Subset.refl _

/-- A mine present after resolving `c` was already there, or is `c` itself and
`c` had no uncovered neighbour. -/
lemma mem_resolveCell_mines {g : Minesweeper} {c d : ℤ × ℤ}
    (h : d ∈ (g.resolveCell c).mines) :
    d ∈ g.mines ∨ (d = c ∧ Minesweeper.adjacent c.1 c.2 ∩ g.uncovered = ∅) := by
  rw [Minesweeper.resolveCell] at h
  split at h
  · split at h
    · rcases Finset.mem_insert.mp h with h' | h'
      · exact Or.inr ⟨h', by assumption⟩
      · exact Or.inl h'
    · exact Or.inl h
  · exact Or.inl h

/-- The generation fold never touches `uncovered`. -/
lemma resolveFold_uncovered (l : List (ℤ × ℤ)) (g : Minesweeper) :
    (l.foldl Minesweeper.resolveCell g).uncovered = g.uncovered := by
  induction l generalizing g with
  | nil => rfl
  | cons c l ih => rw [List.foldl_cons, ih, resolveCell_uncovered]

/-- The generation fold never touches `flags`. -/
lemma resolveFold_flags (l : List (ℤ × ℤ)) (g : Minesweeper) :
    (l.foldl Minesweeper.resolveCell g).flags = g.flags := by
  induction l generalizing g with
  | nil => rfl
  | cons c l ih => rw [List.foldl_cons, ih, resolveCell_flags]

/-- The generation fold never touches `detonated_count`. -/
lemma resolveFold_detonated (l : List (ℤ × ℤ)) (g : Minesweeper) :
    (l.foldl Minesweeper.resolveCell g).detonated_count = g.detonated_count := by
  induction l generalizing g with
  | nil => rfl
  | cons c l ih => rw [List.foldl_cons, ih, resolveCell_detonated]

/-- The generation fold only ever adds mines. -/
lemma resolveFold_mines_subset (l : List (ℤ × ℤ)) (g : Minesweeper) :
    g.mines ⊆ (l.foldl Minesweeper.resolveCell g).mines := by
  induction l generalizing g with
  | nil => exact Finset.Subset.refl _
  | cons c l ih =>
    rw [List.foldl_cons]
    exact (resolveCell_mines_subset g c).trans (ih _)

/-- A mine present after the generation fold was already there, or is one of
the folded candidates and had no uncovered neighbour. -/
lemma mem_resolveFold_mines {l : List (ℤ × ℤ)} {g : Minesweeper} {d : ℤ × ℤ}
    (h : d ∈ (l.foldl Minesweeper.resolveCell g).mines) :
    d ∈ g.mines ∨ (d ∈ l ∧ Minesweeper.adjacent d.1 d.2 ∩ g.uncovered = ∅) := by
  induction l generalizing g with
  | nil => exact Or.inl h
  | cons c l ih =>
    rw [List.foldl_cons] at h
    rcases ih h with h' | ⟨hl, hadj⟩
    · rcases mem_resolveCell_mines h' with h'' | ⟨rfl, hadj⟩
      · exact Or.inl h''
      · exact Or.inr ⟨List.mem_cons_self _ _, hadj⟩
    · rw [resolveCell_uncovered] at hadj
      exact Or.inr ⟨List.mem_cons_of_mem _ hl, hadj⟩

/-- Every candidate of the generation loop is covered. -/
lemma mem_candidates_not_uncovered {g : Minesweeper} {x y : ℤ} {c : ℤ × ℤ}
    (h : c ∈ g.candidates x y) : c ∉ g.uncovered := by
  have := List.of_mem_filter h
  simpa using this

/-! ### Evolution of the state under the mutating interface

`Evolves g g'` captures what any sequence of mutating calls can do to the
state: `uncovered` and `mines` only grow, and every mine decided after `g` sits
at a cell that was covered in `g` and had no uncovered neighbour in `g` — the
mine field around revealed territory is frozen. -/

/-- The evolution relation preserved by every mutating operation. -/
def Evolves (g g' : Minesweeper) : Prop :=
  g.uncovered ⊆ g'.uncovered ∧ g.mines ⊆ g'.mines ∧
    ∀ c, c ∈ g'.mines → c ∈ g.mines ∨
      (c ∉ g.uncovered ∧ Minesweeper.adjacent c.1 c.2 ∩ g.uncovered = ∅)

/-- `Evolves` is reflexive. -/
lemma Evolves.rfl (g : Minesweeper) : Evolves g g :=
  ⟨Finset.Subset.refl _, Finset.Subset.refl _, fun _ h => Or.inl h⟩

/-- `Evolves` is transitive. -/
lemma Evolves.trans {g₁ g₂ g₃ : Minesweeper} (h12 : Evolves g₁ g₂)
    (h23 : Evolves g₂ g₃) : Evolves g₁ g₃ := by
  refine ⟨h12.1.trans h23.1, h12.2.1.trans h23.2.1, fun c hc => ?_⟩
  rcases h23.2.2 c hc with hc2 | ⟨hcu, hadj⟩
  · exact h12.2.2 c hc2
  · refine Or.inr ⟨fun hm => hcu (h12.1 hm), ?_⟩
    rw [Finset.eq_empty_iff_forall_not_mem] at hadj ⊢
    intro a ha
    rcases Finset.mem_inter.mp ha with ⟨ha1, ha2⟩
    exact hadj a (Finset.mem_inter.mpr ⟨ha1, h12.1 ha2⟩)

/-- The generation fold is an evolution step when every folded cell is
covered. -/
lemma evolves_resolveFold (l : List (ℤ × ℤ)) (g : Minesweeper)
    (hl : ∀ c ∈ l, c ∉ g.uncovered) :
    Evolves g (l.foldl Minesweeper.resolveCell g) := by
  refine ⟨?_, resolveFold_mines_subset l g, fun c hc => ?_⟩
  · rw [resolveFold_uncovered]
  · rcases mem_resolveFold_mines hc with h | ⟨hcl, hadj⟩
    · exact Or.inl h
    · exact Or.inr ⟨hl c hcl, hadj⟩

/-- The generation phase of `uncover` is an evolution step. -/
lemma evolves_uncoverCore (g : Minesweeper) (x y : ℤ) :
    Evolves g (g.uncoverCore x y) := by
  rw [Minesweeper.uncoverCore]
  split
  · exact Evolves.rfl g
  · exact evolves_resolveFold _ _ (fun c hc => mem_candidates_not_uncovered hc)

/-- The generation phase never touches `uncovered`. -/
lemma uncoverCore_uncovered (g : Minesweeper) (x y : ℤ) :
    (g.uncoverCore x y).uncovered = g.uncovered := by
  rw [Minesweeper.uncoverCore]
  split
  · rfl
  · exact resolveFold_uncovered _ _

/-- The generation phase never touches `flags`. -/
lemma uncoverCore_flags (g : Minesweeper) (x y : ℤ) :
    (g.uncoverCore x y).flags = g.flags := by
  rw [Minesweeper.uncoverCore]
  split
  · rfl
  · exact resolveFold_flags _ _

/-- The generation phase never touches `detonated_count`. -/
lemma uncoverCore_detonated (g : Minesweeper) (x y : ℤ) :
    (g.uncoverCore x y).detonated_count = g.detonated_count := by
  rw [Minesweeper.uncoverCore]
  split
  · rfl
  · exact resolveFold_detonated _ _

/-- `uncover` is an evolution step. -/
lemma evolves_uncover (g : Minesweeper) (x y : ℤ) :
    Evolves g (g.uncover x y).1 := by
  rw [Minesweeper.uncover]
  split
  · refine (evolves_uncoverCore g x y).trans ?_
    exact ⟨Finset.subset_insert _ _, Finset.Subset.refl _, fun c hc => Or.inl hc⟩
  · exact Evolves.rfl g

/-- `uncover` never touches `flags`. -/
lemma uncover_flags (g : Minesweeper) (x y : ℤ) :
    (g.uncover x y).1.flags = g.flags := by
  rw [Minesweeper.uncover]
  split
  · exact uncoverCore_flags g x y
  · rfl

/-- After `uncover(x, y)` the target is uncovered unless it was flagged. -/
lemma uncover_self_mem (g : Minesweeper) (x y : ℤ) :
    (x, y) ∈ (g.uncover x y).1.uncovered ∨ (x, y) ∈ g.flags := by
  rw [Minesweeper.uncover]
  split
  · exact Or.inl (Finset.mem_insert_self _ _)
  · rename_i h
    rcases Decidable.not_and_iff_or_not.mp h with h' | h'
    · exact Or.inl (by simpa using h')
    · exact Or.inr (by simpa using h')

/-- `flag` is an evolution step. -/
lemma evolves_flag (g : Minesweeper) (x y : ℤ) :
    Evolves g (g.flag x y).1 := by
  rw [Minesweeper.flag]
  split
  · split
    · exact ⟨Finset.Subset.refl _, Finset.Subset.refl _, fun c hc => Or.inl hc⟩
    · exact ⟨Finset.Subset.refl _, Finset.Subset.refl _, fun c hc => Or.inl hc⟩
  · exact Evolves.rfl g

/-- The flood-fill loop is an evolution step. -/
lemma evolves_autoLoop (g : Minesweeper) (q : List (ℤ × ℤ))
    (cache : Finset (ℤ × ℤ)) (n : ℕ) : Evolves g (g.autoLoop q cache n).1 := by
  induction g, q, cache, n using Minesweeper.autoLoop.induct with
  | case1 g cache n => simpa [Minesweeper.autoLoop] using Evolves.rfl g
  | case2 g cache n p rest hn r hcond ih =>
    rw [Minesweeper.autoLoop]
    simp only [if_pos hn, if_pos hcond]
    exact (evolves_uncover g p.1 p.2).trans ih
  | case3 g cache n p rest hn r hcond ih =>
    rw [Minesweeper.autoLoop]
    simp only [if_pos hn, if_neg hcond]
    exact (evolves_uncover g p.1 p.2).trans ih
  | case4 g cache n p rest hn =>
    rw [Minesweeper.autoLoop]
    simp only [if_neg hn]
    exact Evolves.rfl g

/-- `auto_uncover` is an evolution step. -/
lemma evolves_auto_uncover (g : Minesweeper) (x y : ℤ) :
    Evolves g (g.auto_uncover x y).1 :=
  evolves_autoLoop g [(x, y)] {(x, y)} 0

/-- One chord loop iteration is an evolution step. -/
lemma evolves_chordStep (auto : Bool) (g : Minesweeper) (c : ℤ × ℤ) :
    Evolves g (chordStep auto g c) := by
  rw [chordStep]
  split
  · exact evolves_auto_uncover g c.1 c.2
  · exact evolves_uncover g c.1 c.2

/-- The chord loop is an evolution step. -/
lemma evolves_chordFold (auto : Bool) (l : List (ℤ × ℤ)) (g : Minesweeper) :
    Evolves g (l.foldl (chordStep auto) g) := by
  induction l generalizing g with
  | nil => exact Evolves.rfl g
  | cons c l ih =>
    rw [List.foldl_cons]
    exact (evolves_chordStep auto g c).trans (ih _)

/-- `chord` is an evolution step. -/
lemma evolves_chord (g : Minesweeper) (x y : ℤ) (auto : Bool) :
    Evolves g (g.chord x y auto).1 := by
  rw [Minesweeper.chord]
  split
  · exact evolves_chordFold auto _ g
  · exact Evolves.rfl g

/-- Every interface call is an evolution step. -/
lemma evolves_applyOp (g : Minesweeper) (op : Op) : Evolves g (applyOp g op) := by
  cases op with
  | uncover x y => exact evolves_uncover g x y
  | auto_uncover x y => exact evolves_auto_uncover g x y
  | flag x y => exact evolves_flag g x y
  | chord x y auto => exact evolves_chord g x y auto

/-- Every sequence of interface calls is an evolution step. -/
lemma evolves_runOps (g : Minesweeper) (ops : List Op) :
    Evolves g (runOps g ops) := by
  induction ops generalizing g with
  | nil => exact Evolves.rfl g
  | cons op ops ih =>
    rw [runOps, List.foldl_cons]
    exact (evolves_applyOp g op).trans (ih _)

/-! ### Flag/uncover exclusivity -/

/-- `uncover` preserves `uncovered ∩ flags = ∅`. -/
lemma disj_uncover (g : Minesweeper) (x y : ℤ)
    (h : Disjoint g.uncovered g.flags) :
    Disjoint (g.uncover x y).1.uncovered (g.uncover x y).1.flags := by
  rw [Minesweeper.uncover]
  split
  · rename_i hg
    show Disjoint (insert (x, y) (g.uncoverCore x y).uncovered) (g.uncoverCore x y).flags
    rw [uncoverCore_uncovered, uncoverCore_flags, Finset.disjoint_insert_left]
    exact ⟨hg.2, h⟩
  · exact h

/-- `flag` preserves `uncovered ∩ flags = ∅`. -/
lemma disj_flag (g : Minesweeper) (x y : ℤ)
    (h : Disjoint g.uncovered g.flags) :
    Disjoint (g.flag x y).1.uncovered (g.flag x y).1.flags := by
  rw [Minesweeper.flag]
  split
  · rename_i hg
    split
    · show Disjoint g.uncovered (insert (x, y) g.flags)
      rw [Finset.disjoint_insert_right]
      exact ⟨hg, h⟩
    · exact h.mono_right (Finset.erase_subset _ _)
  · exact h

/-- The flood-fill loop preserves `uncovered ∩ flags = ∅`. -/
lemma disj_autoLoop (g : Minesweeper) (q : List (ℤ × ℤ))
    (cache : Finset (ℤ × ℤ)) (n : ℕ) :
    Disjoint g.uncovered g.flags →
      Disjoint (g.autoLoop q cache n).1.uncovered (g.autoLoop q cache n).1.flags := by
  induction g, q, cache, n using Minesweeper.autoLoop.induct with
  | case1 g cache n => intro h; simpa [Minesweeper.autoLoop] using h
  | case2 g cache n p rest hn r hcond ih =>
    intro h
    rw [Minesweeper.autoLoop]
    simp only [if_pos hn, if_pos hcond]
    exact ih (disj_uncover g p.1 p.2 h)
  | case3 g cache n p rest hn r hcond ih =>
    intro h
    rw [Minesweeper.autoLoop]
    simp only [if_pos hn, if_neg hcond]
    exact ih (disj_uncover g p.1 p.2 h)
  | case4 g cache n p rest hn =>
    intro h
    rw [Minesweeper.autoLoop]
    simp only [if_neg hn]
    exact h

/-- `auto_uncover` preserves `uncovered ∩ flags = ∅`. -/
lemma disj_auto_uncover (g : Minesweeper) (x y : ℤ)
    (h : Disjoint g.uncovered g.flags) :
    Disjoint (g.auto_uncover x y).1.uncovered (g.auto_uncover x y).1.flags :=
  disj_autoLoop g [(x, y)] {(x, y)} 0 h

/-- The chord loop preserves `uncovered ∩ flags = ∅`. -/
lemma disj_chordFold (auto : Bool) (l : List (ℤ × ℤ)) (g : Minesweeper)
    (h : Disjoint g.uncovered g.flags) :
    Disjoint (l.foldl (chordStep auto) g).uncovered
      (l.foldl (chordStep auto) g).flags := by
  induction l generalizing g with
  | nil => exact h
  | cons c l ih =>
    rw [List.foldl_cons]
    refine ih _ ?_
    rw [chordStep]
    split
    · exact disj_auto_uncover g c.1 c.2 h
    · exact disj_uncover g c.1 c.2 h

/-- `chord` preserves `uncovered ∩ flags = ∅`. -/
lemma disj_chord (g : Minesweeper) (x y : ℤ) (auto : Bool)
    (h : Disjoint g.uncovered g.flags) :
    Disjoint (g.chord x y auto).1.uncovered (g.chord x y auto).1.flags := by
  rw [Minesweeper.chord]
  split
  · exact disj_chordFold auto _ g h
  · exact h

/-- Every interface call preserves `uncovered ∩ flags = ∅`. -/
lemma disj_applyOp (g : Minesweeper) (op : Op)
    (h : Disjoint g.uncovered g.flags) :
    Disjoint (applyOp g op).uncovered (applyOp g op).flags := by
  cases op with
  | uncover x y => exact disj_uncover g x y h
  | auto_uncover x y => exact disj_auto_uncover g x y h
  | flag x y => exact disj_flag g x y h
  | chord x y auto => exact disj_chord g x y auto h

/-- Every sequence of interface calls preserves `uncovered ∩ flags = ∅`. -/
lemma disj_runOps (g : Minesweeper) (ops : List Op)
    (h : Disjoint g.uncovered g.flags) :
    Disjoint (runOps g ops).uncovered (runOps g ops).flags := by
  induction ops generalizing g with
  | nil => exact h
  | cons op ops ih =>
    rw [runOps, List.foldl_cons]
    exact ih _ (disj_applyOp g op h)

/-! ### The detonation counter -/

/-- The generation fold does not change the set of uncovered mines. -/
lemma resolveFold_mines_inter (l : List (ℤ × ℤ)) (g : Minesweeper)
    (hl : ∀ c ∈ l, c ∉ g.uncovered) :
    (l.foldl Minesweeper.resolveCell g).mines ∩ g.uncovered =
      g.mines ∩ g.uncovered := by
  apply Finset.Subset.antisymm
  · intro d hd
    rcases Finset.mem_inter.mp hd with ⟨hdm, hdu⟩
    rcases mem_resolveFold_mines hdm with h | ⟨hdl, _⟩
    · exact Finset.mem_inter.mpr ⟨h, hdu⟩
    · exact absurd hdu (hl d hdl)
  · exact Finset.inter_subset_inter (resolveFold_mines_subset l g)
      (Finset.Subset.refl _)

/-- The generation phase of `uncover` does not change the set of uncovered
mines. -/
lemma uncoverCore_mines_inter (g : Minesweeper) (x y : ℤ) :
    (g.uncoverCore x y).mines ∩ g.uncovered = g.mines ∩ g.uncovered := by
  rw [Minesweeper.uncoverCore]
  split
  · rfl
  · exact resolveFold_mines_inter _ _ (fun c hc => mem_candidates_not_uncovered hc)

/-- `uncover` preserves `detonated_count = |mines ∩ uncovered|`. -/
lemma counter_uncover (g : Minesweeper) (x y : ℤ)
    (h : g.detonated_count = (g.mines ∩ g.uncovered).card) :
    (g.uncover x y).1.detonated_count =
      ((g.uncover x y).1.mines ∩ (g.uncover x y).1.uncovered).card := by
  rw [Minesweeper.uncover]
  split
  · rename_i hg
    show (g.uncoverCore x y).detonated_count +
        (if (x, y) ∈ (g.uncoverCore x y).mines then 1 else 0) =
      ((g.uncoverCore x y).mines ∩ insert (x, y) (g.uncoverCore x y).uncovered).card
    rw [uncoverCore_detonated, uncoverCore_uncovered]
    have hnu : (x, y) ∉ g.uncovered := hg.1
    split
    · rename_i hm
      rw [Finset.inter_insert_of_mem hm,
        Finset.card_insert_of_not_mem (fun hx => hnu (Finset.mem_inter.mp hx).2),
        uncoverCore_mines_inter, h]
    · rename_i hm
      rw [Finset.inter_insert_of_not_mem hm, uncoverCore_mines_inter, h,
        Nat.add_zero]
  · exact h

/-- `flag` preserves `detonated_count = |mines ∩ uncovered|`. -/
lemma counter_flag (g : Minesweeper) (x y : ℤ)
    (h : g.detonated_count = (g.mines ∩ g.uncovered).card) :
    (g.flag x y).1.detonated_count =
      ((g.flag x y).1.mines ∩ (g.flag x y).1.uncovered).card := by
  rw [Minesweeper.flag]
  split
  · split <;> exact h
  · exact h

/-- The flood-fill loop preserves `detonated_count = |mines ∩ uncovered|`. -/
lemma counter_autoLoop (g : Minesweeper) (q : List (ℤ × ℤ))
    (cache : Finset (ℤ × ℤ)) (n : ℕ) :
    g.detonated_count = (g.mines ∩ g.uncovered).card →
      (g.autoLoop q cache n).1.detonated_count =
        ((g.autoLoop q cache n).1.mines ∩ (g.autoLoop q cache n).1.uncovered).card := by
  induction g, q, cache, n using Minesweeper.autoLoop.induct with
  | case1 g cache n => intro h; simpa [Minesweeper.autoLoop] using h
  | case2 g cache n p rest hn r hcond ih =>
    intro h
    rw [Minesweeper.autoLoop]
    simp only [if_pos hn, if_pos hcond]
    exact ih (counter_uncover g p.1 p.2 h)
  | case3 g cache n p rest hn r hcond ih =>
    intro h
    rw [Minesweeper.autoLoop]
    simp only [if_pos hn, if_neg hcond]
    exact ih (counter_uncover g p.1 p.2 h)
  | case4 g cache n p rest hn =>
    intro h
    rw [Minesweeper.autoLoop]
    simp only [if_neg hn]
    exact h

/-- `auto_uncover` preserves `detonated_count = |mines ∩ uncovered|`. -/
lemma counter_auto_uncover (g : Minesweeper) (x y : ℤ)
    (h : g.detonated_count = (g.mines ∩ g.uncovered).card) :
    (g.auto_uncover x y).1.detonated_count =
      ((g.auto_uncover x y).1.mines ∩ (g.auto_uncover x y).1.uncovered).card :=
  counter_autoLoop g [(x, y)] {(x, y)} 0 h

/-- The chord loop preserves `detonated_count = |mines ∩ uncovered|`. -/
lemma counter_chordFold (auto : Bool) (l : List (ℤ × ℤ)) (g : Minesweeper)
    (h : g.detonated_count = (g.mines ∩ g.uncovered).card) :
    (l.foldl (chordStep auto) g).detonated_count =
      ((l.foldl (chordStep auto) g).mines ∩
        (l.foldl (chordStep auto) g).uncovered).card := by
  induction l generalizing g with
  | nil => exact h
  | cons c l ih =>
    rw [List.foldl_cons]
    refine ih _ ?_
    rw [chordStep]
    split
    · exact counter_auto_uncover g c.1 c.2 h
    · exact counter_uncover g c.1 c.2 h

/-- `chord` preserves `detonated_count = |mines ∩ uncovered|`. -/
lemma counter_chord (g : Minesweeper) (x y : ℤ) (auto : Bool)
    (h : g.detonated_count = (g.mines ∩ g.uncovered).card) :
    (g.chord x y auto).1.detonated_count =
      ((g.chord x y auto).1.mines ∩ (g.chord x y auto).1.uncovered).card := by
  rw [Minesweeper.chord]
  split
  · exact counter_chordFold auto _ g h
  · exact h

/-- Every interface call preserves `detonated_count = |mines ∩ uncovered|`. -/
lemma counter_applyOp (g : Minesweeper) (op : Op)
    (h : g.detonated_count = (g.mines ∩ g.uncovered).card) :
    (applyOp g op).detonated_count =
      ((applyOp g op).mines ∩ (applyOp g op).uncovered).card := by
  cases op with
  | uncover x y => exact counter_uncover g x y h
  | auto_uncover x y => exact counter_auto_uncover g x y h
  | flag x y => exact counter_flag g x y h
  | chord x y auto => exact counter_chord g x y auto h

/-- Every sequence of interface calls preserves
`detonated_count = |mines ∩ uncovered|`. -/
lemma counter_runOps (g : Minesweeper) (ops : List Op)
    (h : g.detonated_count = (g.mines ∩ g.uncovered).card) :
    (runOps g ops).detonated_count =
      ((runOps g ops).mines ∩ (runOps g ops).uncovered).card := by
  induction ops generalizing g with
  | nil => exact h
  | cons op ops ih =>
    rw [runOps, List.foldl_cons]
    exact ih _ (counter_applyOp g op h)

/-! ### The flood-fill counter and queue -/

/-- The flood-fill counter never exceeds `AUTO_LIMIT`. -/
lemma autoLoop_count_le (g : Minesweeper) (q : List (ℤ × ℤ))
    (cache : Finset (ℤ × ℤ)) (n : ℕ) :
    n ≤ AUTO_LIMIT → (g.autoLoop q cache n).2 ≤ AUTO_LIMIT := by
  induction g, q, cache, n using Minesweeper.autoLoop.induct with
  | case1 g cache n =>
    intro h
    simpa [Minesweeper.autoLoop] using h
  | case2 g cache n p rest hn r hcond ih =>
    intro h
    rw [Minesweeper.autoLoop]
    simp only [if_pos hn, if_pos hcond]
    exact ih (by omega)
  | case3 g cache n p rest hn r hcond ih =>
    intro h
    rw [Minesweeper.autoLoop]
    simp only [if_pos hn, if_neg hcond]
    exact ih h
  | case4 g cache n p rest hn =>
    intro h
    rw [Minesweeper.autoLoop]
    simp only [if_neg hn]
    exact h

/-- The appended neighbours are pairwise distinct. -/
lemma freshNeighbors_nodup (r : Minesweeper) (cache : Finset (ℤ × ℤ))
    (p : ℤ × ℤ) : (freshNeighbors r cache p).Nodup :=
  (adjacentList_nodup p.1 p.2).filter _

/-- The appended neighbours were not yet visited. -/
lemma mem_freshNeighbors_not_cache {r : Minesweeper} {cache : Finset (ℤ × ℤ)}
    {p c : ℤ × ℤ} (h : c ∈ freshNeighbors r cache p) : c ∉ cache := by
  have := List.of_mem_filter h
  simp only [decide_eq_true_eq] at this
  exact this.1

/-! ### The chord loop with `auto=False` -/

/-- With `auto=False` the chord loop body is a plain `uncover`. -/
lemma chordStep_false (g : Minesweeper) (c : ℤ × ℤ) :
    chordStep false g c = (g.uncover c.1 c.2).1 := by
  simp [chordStep]

/-- The plain chord loop never touches `flags`. -/
lemma chordFold_flags_false (l : List (ℤ × ℤ)) (g : Minesweeper) :
    (l.foldl (chordStep false) g).flags = g.flags := by
  induction l generalizing g with
  | nil => rfl
  | cons c l ih => rw [List.foldl_cons, ih, chordStep_false, uncover_flags]

/-- After the plain chord loop, every cell of the iterated list is uncovered
unless it carried a flag beforehand. -/
lemma chordFold_mem_false (l : List (ℤ × ℤ)) (g : Minesweeper) :
    ∀ c ∈ l, c ∈ (l.foldl (chordStep false) g).uncovered ∨ c ∈ g.flags := by
  induction l generalizing g with
  | nil => intro c hc; cases hc
  | cons c l ih =>
    intro d hd
    rw [List.foldl_cons]
    rcases List.mem_cons.mp hd with rfl | hd
    · rcases uncover_self_mem g d.1 d.2 with h | h
      · left
        refine (evolves_chordFold false l _).1 ?_
        rw [chordStep_false]
        simpa using h
      · right
        simpa using h
    · rcases ih _ d hd with h | h
      · exact Or.inl h
      · right
        rw [chordStep_false, uncover_flags] at h
        exact h

/-- A cell uncovered by `uncover` was already uncovered, or is the unflagged
target of the call: `uncover` never reveals any other cell. -/
lemma mem_uncover_uncovered {g : Minesweeper} {x y : ℤ} {d : ℤ × ℤ}
    (h : d ∈ (g.uncover x y).1.uncovered) :
    d ∈ g.uncovered ∨ (d = (x, y) ∧ (x, y) ∉ g.flags) := by
  rw [Minesweeper.uncover] at h
  split at h
  · rename_i hg
    dsimp only at h
    rw [uncoverCore_uncovered] at h
    rcases Finset.mem_insert.mp h with h' | h'
    · exact Or.inr ⟨h', hg.2⟩
    · exact Or.inl h'
  · exact Or.inl h

/-- A covered flagged cell stays covered through the plain chord loop: its
flag never moves and `uncover` refuses flagged targets. -/
lemma chordFold_flagged_covered (l : List (ℤ × ℤ)) (g : Minesweeper)
    {c : ℤ × ℤ} (hf : c ∈ g.flags) (hnu : c ∉ g.uncovered) :
    c ∉ (l.foldl (chordStep false) g).uncovered := by
  induction l generalizing g with
  | nil => exact hnu
  | cons a l ih =>
    rw [List.foldl_cons, chordStep_false]
    refine ih _ ?_ ?_
    · rw [uncover_flags]
      exact hf
    · intro hcon
      rcases mem_uncover_uncovered hcon with h | ⟨h', hnf⟩
      · exact hnu h
      · rw [h'] at hf
        exact hnf hf

/-! ### Totality of the tile derivation -/

/-- `Tile.ofValue` succeeds on every count of at most 8. -/
lemma Tile.ofValue_isSome {n : ℕ} (h : n ≤ 8) : ∃ t, Tile.ofValue n = some t := by
  interval_cases n <;> exact ⟨_, rfl⟩

/-! ## Concrete states used to instantiate the claims -/

/-- A state with `(0, 0)` uncovered and nothing else decided. -/
def oneUncovered : Minesweeper :=
  { density := 0, mines := ∅, uncovered := {(0, 0)}, flags := ∅,
    detonated_count := 0, rand := fun _ => 0, rngIdx := 0 }

/-- A state whose cell `(0, 0)` is uncovered and safe, whose neighbour
`(1, 0)` is an unflagged covered mine and whose neighbour `(1, 1)` carries a
wrongly placed flag: the chord guard at `(0, 0)` is satisfied (1 flag + 0
uncovered mines = 1 mine) although the flag does not sit on the mine. -/
def wrongFlagState : Minesweeper :=
  { density := 0, mines := {(1, 0)}, uncovered := {(0, 0)}, flags := {(1, 1)},
    detonated_count := 0, rand := fun _ => 0, rngIdx := 0 }

/-! ## The claims -/

/-- C1, as stated, is false on the code: at density 1 (every random draw is
below the density, here with the stream constantly 0), uncovering `(0, 0)`
and then `(1, 0)` does NOT make `(1, 0)` a mine — `(1, 0)` is adjacent to
the uncovered `(0, 0)`, so its resolution is skipped and it stays safe;
`detonated_count` stays 0 and `get_tile(1, 0)` is not `DETONATED`. -/
theorem claim_C1_counterexample :
    ¬(((1 : ℤ), (0 : ℤ)) ∈
        (((Minesweeper.init 1 (fun _ => 0)).uncover 0 0).1.uncover 1 0).1.mines ∧
      (((Minesweeper.init 1 (fun _ => 0)).uncover 0 0).1.uncover 1 0).1.detonated_count = 1 ∧
      (((Minesweeper.init 1 (fun _ => 0)).uncover 0 0).1.uncover 1 0).1.get_tile 1 0 =
        some Tile.DETONATED) := by
  decide

/-- C1 (amended): on a fresh field at density 1 (every draw of the random
stream is `< 1`), uncovering `(0, 0)` and then `(1, 0)` leaves both `(0, 0)`
and `(1, 0)` safe (neither is in `mines`), leaves `detonated_count` at 0, and
`get_tile(1, 0)` returns `THREE` (the three resolved mines are at `(2, -1)`,
`(2, 0)` and `(2, 1)`). -/
theorem claim_C1 (rand : ℕ → ℚ) (h : ∀ i, rand i < 1) :
    ((0 : ℤ), (0 : ℤ)) ∉
      (((Minesweeper.init 1 rand).uncover 0 0).1.uncover 1 0).1.mines ∧
    ((1 : ℤ), (0 : ℤ)) ∉
      (((Minesweeper.init 1 rand).uncover 0 0).1.uncover 1 0).1.mines ∧
    (((Minesweeper.init 1 rand).uncover 0 0).1.uncover 1 0).1.detonated_count = 0 ∧
    (((Minesweeper.init 1 rand).uncover 0 0).1.uncover 1 0).1.get_tile 1 0 =
      some Tile.THREE := by
  have h0 := h 0
  have h1 := h 1
  have h2 := h 2
  simp +decide [Minesweeper.uncover, Minesweeper.uncoverCore, Minesweeper.candidates,
    Minesweeper.resolveCell, Minesweeper.adjacent, adjacentList, Minesweeper.init,
    Minesweeper.get_tile, Tile.ofValue, h0, h1, h2]

/-- C1 witness: the amended claim at the constant stream 0. -/
theorem claim_C1_witness :
    ((0 : ℤ), (0 : ℤ)) ∉
      (((Minesweeper.init 1 (fun _ => 0)).uncover 0 0).1.uncover 1 0).1.mines ∧
    ((1 : ℤ), (0 : ℤ)) ∉
      (((Minesweeper.init 1 (fun _ => 0)).uncover 0 0).1.uncover 1 0).1.mines ∧
    (((Minesweeper.init 1 (fun _ => 0)).uncover 0 0).1.uncover 1 0).1.detonated_count = 0 ∧
    (((Minesweeper.init 1 (fun _ => 0)).uncover 0 0).1.uncover 1 0).1.get_tile 1 0 =
      some Tile.THREE :=
  claim_C1 (fun _ => 0) (fun _ => zero_lt_one)

/-- C2, as stated, is false on the code: on the very first uncover nothing at
all is resolved.  At density 1 the neighbour `(1, 1)` of the first uncover
would have to be a mine if it received its random decision, yet it is not,
and no random draw is consumed (`rngIdx` stays 0). -/
theorem claim_C2_counterexample :
    ((1 : ℤ), (1 : ℤ)) ∉ ((Minesweeper.init 1 (fun _ => 0)).uncover 0 0).1.mines ∧
    ((Minesweeper.init 1 (fun _ => 0)).uncover 0 0).1.rngIdx = 0 := by
  decide

/-- C2 (amended): on the very first uncover call of a fresh field, resolution
is skipped entirely — neither the target `(x, y)` nor any of its 8 neighbours
receives a mine/safe decision (`mines` stays empty and no random draw is
consumed); the cell is simply marked uncovered and the call returns true. -/
theorem claim_C2 (density : ℚ) (rand : ℕ → ℚ) (x y : ℤ) :
    ((Minesweeper.init density rand).uncover x y).1.mines = ∅ ∧
    ((Minesweeper.init density rand).uncover x y).1.rngIdx = 0 ∧
    ((Minesweeper.init density rand).uncover x y).1.uncovered = {(x, y)} ∧
    ((Minesweeper.init density rand).uncover x y).2 = true := by
  simp [Minesweeper.uncover, Minesweeper.init, Minesweeper.uncoverCore]

set_option maxRecDepth 4000 in
/-- C3, as stated, is false on the code: in `wrongFlagState` the chord guard
at `(0, 0)` holds and `chord` returns true, yet the flagged neighbour
`(1, 1)` does not end up uncovered (a flag blocks `uncover`). -/
theorem claim_C3_counterexample :
    (((0 : ℤ), (0 : ℤ)) ∈ wrongFlagState.uncovered ∧
      ((0 : ℤ), (0 : ℤ)) ∉ wrongFlagState.mines ∧
      (Minesweeper.adjacent 0 0 ∩ wrongFlagState.flags).card +
        (Minesweeper.adjacent 0 0 ∩ wrongFlagState.uncovered ∩ wrongFlagState.mines).card =
        (Minesweeper.adjacent 0 0 ∩ wrongFlagState.mines).card) ∧
    (wrongFlagState.chord 0 0 false).2 = true ∧
    ((1 : ℤ), (1 : ℤ)) ∈ Minesweeper.adjacent 0 0 ∧
    ((1 : ℤ), (1 : ℤ)) ∉ (wrongFlagState.chord 0 0 false).1.uncovered := by
  decide

set_option maxHeartbeats 1000000 in
/-- C3 (amended): for every state in which `(x, y)` is uncovered and not a
mine and the flagged plus uncovered-mine neighbour count equals the mine
neighbour count, `chord(x, y)` returns true and afterwards every one of the
8 neighbours of `(x, y)` that is not flagged is in `uncovered`, while every
covered flagged neighbour stays covered. -/
theorem claim_C3 (g : Minesweeper) (x y : ℤ)
    (hu : (x, y) ∈ g.uncovered) (hm : (x, y) ∉ g.mines)
    (hc : (Minesweeper.adjacent x y ∩ g.flags).card +
      (Minesweeper.adjacent x y ∩ g.uncovered ∩ g.mines).card =
      (Minesweeper.adjacent x y ∩ g.mines).card) :
    (g.chord x y false).2 = true ∧
    (∀ c ∈ Minesweeper.adjacent x y,
      c ∈ (g.chord x y false).1.uncovered ∨ c ∈ g.flags) ∧
    ∀ c ∈ Minesweeper.adjacent x y, c ∈ g.flags → c ∉ g.uncovered →
      c ∉ (g.chord x y false).1.uncovered := by
  rw [Minesweeper.chord]
  split
  · dsimp only
    refine ⟨rfl, fun c hcadj => ?_, fun c hcadj hf hnu => ?_⟩
    · have hcl : c ∈ adjacentList x y := by
        rw [Minesweeper.adjacent] at hcadj
        exact List.mem_toFinset.mp hcadj
      exact chordFold_mem_false (adjacentList x y) g c hcl
    · exact chordFold_flagged_covered (adjacentList x y) g hf hnu
  · rename_i hneg
    exact absurd ⟨hu, hm, hc⟩ hneg

/-- C3 witness: the amended claim on a state with one uncovered safe cell and
no mines, where the guard holds as 0 + 0 = 0. -/
theorem claim_C3_witness :
    (oneUncovered.chord 0 0 false).2 = true ∧
    (∀ c ∈ Minesweeper.adjacent 0 0,
      c ∈ (oneUncovered.chord 0 0 false).1.uncovered ∨ c ∈ oneUncovered.flags) ∧
    ∀ c ∈ Minesweeper.adjacent 0 0, c ∈ oneUncovered.flags →
      c ∉ oneUncovered.uncovered →
      c ∉ (oneUncovered.chord 0 0 false).1.uncovered :=
  claim_C3 oneUncovered 0 0 (by decide) (by decide) (by decide)

/-- C4: for every density in `[0, 1]` and every coordinate `(x, y)`, the
first uncover call on a freshly constructed field returns true, and after it
the revealed cell `(x, y)` is not in `mines` and `detonated_count` is 0. -/
theorem claim_C4 (density : ℚ) (rand : ℕ → ℚ) (x y : ℤ)
    (hd0 : 0 ≤ density) (hd1 : density ≤ 1) :
    ((Minesweeper.init density rand).uncover x y).2 = true ∧
    (x, y) ∉ ((Minesweeper.init density rand).uncover x y).1.mines ∧
    ((Minesweeper.init density rand).uncover x y).1.detonated_count = 0 := by
  simp [Minesweeper.uncover, Minesweeper.init, Minesweeper.uncoverCore]

/-- C4 witness: the first move at density 0 from the constant stream 0. -/
theorem claim_C4_witness :
    ((Minesweeper.init 0 (fun _ => 0)).uncover 0 0).2 = true ∧
    ((0 : ℤ), (0 : ℤ)) ∉ ((Minesweeper.init 0 (fun _ => 0)).uncover 0 0).1.mines ∧
    ((Minesweeper.init 0 (fun _ => 0)).uncover 0 0).1.detonated_count = 0 :=
  claim_C4 0 (fun _ => 0) 0 0 (le_refl 0) zero_le_one

/-- C5: once `(x, y)` is uncovered and not a mine (so `get_tile` reports its
numeric tile), no subsequent sequence of `uncover`, `flag`, `chord` or
auto-chord operations changes what `get_tile` reports there; the tile is the
numeric tile of the original mine set, and no neighbour of `(x, y)` is ever
newly added to `mines`. -/
theorem claim_C5 (g : Minesweeper) (x y : ℤ) (ops : List Op)
    (hu : (x, y) ∈ g.uncovered) (hm : (x, y) ∉ g.mines) :
    (runOps g ops).get_tile x y = g.get_tile x y ∧
    g.get_tile x y = Tile.ofValue ((Minesweeper.adjacent x y ∩ g.mines).card) ∧
    ∀ c ∈ Minesweeper.adjacent x y, c ∉ g.mines → c ∉ (runOps g ops).mines := by
  obtain ⟨hus, hms, hfr⟩ := evolves_runOps g ops
  have h1 : (x, y) ∈ (runOps g ops).uncovered := hus hu
  have h2 : (x, y) ∉ (runOps g ops).mines := by
    intro hcon
    rcases hfr _ hcon with h | ⟨h, _⟩
    · exact hm h
    · exact h hu
  have hadjm : ∀ c ∈ Minesweeper.adjacent x y, c ∉ g.mines →
      c ∉ (runOps g ops).mines := by
    intro c hcadj hcm hcon
    rcases hfr _ hcon with h | ⟨_, hemp⟩
    · exact hcm h
    · have hxy : (x, y) ∈ Minesweeper.adjacent c.1 c.2 := adjacent_comm.mp hcadj
      have hin : (x, y) ∈ Minesweeper.adjacent c.1 c.2 ∩ g.uncovered :=
        Finset.mem_inter.mpr ⟨hxy, hu⟩
      rw [hemp] at hin
      exact absurd hin (Finset.not_mem_empty _)
  have h3 : Minesweeper.adjacent x y ∩ (runOps g ops).mines =
      Minesweeper.adjacent x y ∩ g.mines := by
    apply Finset.Subset.antisymm
    · intro d hd
      rcases Finset.mem_inter.mp hd with ⟨hda, hdm⟩
      refine Finset.mem_inter.mpr ⟨hda, ?_⟩
      by_contra hdg
      exact hadjm d hda hdg hdm
    · exact Finset.inter_subset_inter (Finset.Subset.refl _) hms
  refine ⟨?_, ?_, hadjm⟩
  · rw [Minesweeper.get_tile, Minesweeper.get_tile, if_neg h2, if_neg hm,
      if_pos h1, if_pos hu, h3]
  · rw [Minesweeper.get_tile, if_neg hm, if_pos hu]

/-- C5 witness: stability of the tile at `(0, 0)` across a flag operation. -/
theorem claim_C5_witness :
    (runOps oneUncovered [Op.flag 5 5]).get_tile 0 0 = oneUncovered.get_tile 0 0 ∧
    oneUncovered.get_tile 0 0 =
      Tile.ofValue ((Minesweeper.adjacent 0 0 ∩ oneUncovered.mines).card) ∧
    ∀ c ∈ Minesweeper.adjacent 0 0, c ∉ oneUncovered.mines →
      c ∉ (runOps oneUncovered [Op.flag 5 5]).mines :=
  claim_C5 oneUncovered 0 0 [Op.flag 5 5] (by decide) (by decide)

/-- C6: from the initial state, after every sequence of interface calls the
sets `uncovered` and `flags` are disjoint — no coordinate is ever in both. -/
theorem claim_C6 (density : ℚ) (rand : ℕ → ℚ) (ops : List Op) :
    (runOps (Minesweeper.init density rand) ops).uncovered ∩
      (runOps (Minesweeper.init density rand) ops).flags = ∅ :=
  Finset.disjoint_iff_inter_eq_empty.mp
    (disj_runOps (Minesweeper.init density rand) ops (by simp [Minesweeper.init]))

/-- C7: in every state reachable from the initial state, `detonated_count`
equals the number of coordinates in `mines ∩ uncovered`; a coordinate already
uncovered and safe is never later added to `mines`; and each legal `uncover`
increments the counter exactly when the newly revealed cell is a mine. -/
theorem claim_C7 :
    (∀ (density : ℚ) (rand : ℕ → ℚ) (ops : List Op),
      (runOps (Minesweeper.init density rand) ops).detonated_count =
        ((runOps (Minesweeper.init density rand) ops).mines ∩
          (runOps (Minesweeper.init density rand) ops).uncovered).card) ∧
    (∀ (g : Minesweeper) (c : ℤ × ℤ) (ops : List Op),
      c ∈ g.uncovered → c ∉ g.mines → c ∉ (runOps g ops).mines) ∧
    (∀ (g : Minesweeper) (x y : ℤ), (x, y) ∉ g.uncovered → (x, y) ∉ g.flags →
      (g.uncover x y).1.detonated_count =
        g.detonated_count + if (x, y) ∈ (g.uncover x y).1.mines then 1 else 0) := by
  refine ⟨fun density rand ops =>
      counter_runOps _ ops (by simp [Minesweeper.init]),
    fun g c ops hcu hcm hcon => ?_, fun g x y hu hf => ?_⟩
  · rcases (evolves_runOps g ops).2.2 c hcon with h | ⟨h, _⟩
    · exact hcm h
    · exact h hcu
  · rw [Minesweeper.uncover, if_pos ⟨hu, hf⟩]
    simp only [uncoverCore_detonated]

/-- C7 witness: the three parts at the empty run, at a covered-neighbour run
and at a first uncover. -/
theorem claim_C7_witness :
    (runOps (Minesweeper.init 1 (fun _ => 0)) []).detonated_count =
      ((runOps (Minesweeper.init 1 (fun _ => 0)) []).mines ∩
        (runOps (Minesweeper.init 1 (fun _ => 0)) []).uncovered).card ∧
    ((0 : ℤ), (0 : ℤ)) ∉ (runOps oneUncovered [Op.uncover 1 0]).mines ∧
    ((Minesweeper.init 1 (fun _ => 0)).uncover 0 0).1.detonated_count =
      (Minesweeper.init 1 (fun _ => 0)).detonated_count +
        if ((0 : ℤ), (0 : ℤ)) ∈ ((Minesweeper.init 1 (fun _ => 0)).uncover 0 0).1.mines
        then 1 else 0 :=
  ⟨claim_C7.1 1 (fun _ => 0) [],
   claim_C7.2.1 oneUncovered (0, 0) [Op.uncover 1 0] (by decide) (by decide),
   claim_C7.2.2 (Minesweeper.init 1 (fun _ => 0)) 0 0 (by decide) (by decide)⟩

/-- C8: `chord` on a covered cell, on a mine cell, or on a cell whose flagged
plus uncovered-mine neighbour count differs from its mine neighbour count,
returns false and leaves the entire state unchanged. -/
theorem claim_C8 (g : Minesweeper) (x y : ℤ) (auto : Bool)
    (h : (x, y) ∉ g.uncovered ∨ (x, y) ∈ g.mines ∨
      (Minesweeper.adjacent x y ∩ g.flags).card +
        (Minesweeper.adjacent x y ∩ g.uncovered ∩ g.mines).card ≠
        (Minesweeper.adjacent x y ∩ g.mines).card) :
    g.chord x y auto = (g, false) := by
  rw [Minesweeper.chord, if_neg]
  rintro ⟨h1, h2, h3⟩
  rcases h with h | h | h
  · exact h h1
  · exact h2 h
  · exact h h3

/-- C8 witness: chording the covered cell `(0, 0)` of a fresh field. -/
theorem claim_C8_witness :
    (Minesweeper.init 0 (fun _ => 0)).chord 0 0 false =
      (Minesweeper.init 0 (fun _ => 0), false) :=
  claim_C8 _ 0 0 false (Or.inl (by decide))

/-- C9: the flood fill of `auto_uncover` (total by construction, hence
terminating) counts at most `AUTO_LIMIT = 65536` steps from any state and
coordinate, and the queue discipline enqueues no coordinate twice: when the
queue is duplicate-free and covered by the visited set, so is the queue of
the next iteration. -/
theorem claim_C9 :
    (∀ (g : Minesweeper) (x y : ℤ),
      (g.autoLoop [(x, y)] {(x, y)} 0).2 ≤ AUTO_LIMIT) ∧
    AUTO_LIMIT = 65536 ∧
    (∀ (r : Minesweeper) (cache : Finset (ℤ × ℤ)) (p : ℤ × ℤ)
      (rest : List (ℤ × ℤ)),
      (p :: rest).Nodup → (∀ a ∈ p :: rest, a ∈ cache) →
      ((rest ++ freshNeighbors r cache p).Nodup ∧
        ∀ a ∈ rest ++ freshNeighbors r cache p,
          a ∈ cache ∪ (freshNeighbors r cache p).toFinset)) := by
  refine ⟨fun g x y => autoLoop_count_le g _ _ 0 (by decide), by decide,
    fun r cache p rest hnd hsub => ⟨?_, ?_⟩⟩
  · refine ((List.nodup_cons.mp hnd).2).append (freshNeighbors_nodup r cache p) ?_
    intro a ha hafresh
    exact mem_freshNeighbors_not_cache hafresh (hsub a (List.mem_cons_of_mem _ ha))
  · intro a ha
    rcases List.mem_append.mp ha with h | h
    · exact Finset.mem_union_left _ (hsub a (List.mem_cons_of_mem _ h))
    · exact Finset.mem_union_right _ (List.mem_toFinset.mpr h)

/-- C9 witness: the count bound from a fresh field, and one queue step from
the singleton queue. -/
theorem claim_C9_witness :
    ((Minesweeper.init 0 (fun _ => 0)).autoLoop
      [((0 : ℤ), (0 : ℤ))] {((0 : ℤ), (0 : ℤ))} 0).2 ≤ AUTO_LIMIT ∧
    ((([] : List (ℤ × ℤ)) ++
        freshNeighbors oneUncovered {((0 : ℤ), (0 : ℤ))} (0, 0)).Nodup ∧
      ∀ a ∈ ([] : List (ℤ × ℤ)) ++
          freshNeighbors oneUncovered {((0 : ℤ), (0 : ℤ))} (0, 0),
        a ∈ {((0 : ℤ), (0 : ℤ))} ∪
          (freshNeighbors oneUncovered {((0 : ℤ), (0 : ℤ))} (0, 0)).toFinset) :=
  ⟨claim_C9.1 (Minesweeper.init 0 (fun _ => 0)) 0 0,
   claim_C9.2.2 oneUncovered {(0, 0)} (0, 0) [] (by decide) (by decide)⟩

/-- C10: `get_tile` is total: `adjacent` always has exactly 8 elements, none
of them the cell itself, so the numeric branch counts at most 8 mines and
`Tile(...)` always succeeds — `get_tile` returns one of the 14 tiles for
every state and coordinate. -/
theorem claim_C10 (g : Minesweeper) (x y : ℤ) :
    (Minesweeper.adjacent x y).card = 8 ∧
    (x, y) ∉ Minesweeper.adjacent x y ∧
    (Minesweeper.adjacent x y ∩ g.mines).card ≤ 8 ∧
    ∃ t, g.get_tile x y = some t := by
  have hc : (Minesweeper.adjacent x y ∩ g.mines).card ≤ 8 := by
    calc (Minesweeper.adjacent x y ∩ g.mines).card
        ≤ (Minesweeper.adjacent x y).card :=
          Finset.card_le_card Finset.inter_subset_left
      _ = 8 := adjacent_card x y
  refine ⟨adjacent_card x y, not_mem_adjacent_self x y, hc, ?_⟩
  rw [Minesweeper.get_tile]
  split
  · exact ⟨_, rfl⟩
  · split
    · exact Tile.ofValue_isSome hc
    · exact ⟨_, rfl⟩

end Pymines
